import Mathlib

/-!
Verification of the chat-langchain-practice orchestration core and ingestion
utilities.  Pure functions from `backend-js/src/ingest/parser.ts` are embedded
directly; components of the state-graph orchestration core (channel reducers,
conditional router, executor loop, fan-out/fan-in coordinator) are modelled
from the specification, since their implementation files are not part of the
sources here.
-/

/-! ## Character-level text utilities (from `parser.ts`) -/

/-- Whether a character is a plain space or a tab, the class `[ \t]` used by
`cleanText`'s second regex. -/
def isSpaceTab (c : Char) : Bool :=
  c = ' ' || c = '\t'

/-- Embeds the regex replace `/\n\n+/g → "\n\n"` of `cleanText`: a maximal run
of `k` newlines is emitted as `min k 2` newlines.  `nl` counts the pending
newlines of the current run. -/
def collapseNlGo (nl : Nat) : List Char → List Char
  | [] => List.replicate (min nl 2) '\n'
  | c :: rest =>
    if c = '\n' then collapseNlGo (nl + 1) rest
    else List.replicate (min nl 2) '\n' ++ c :: collapseNlGo 0 rest

/-- `text.replace(/\n\n+/g, '\n\n')` from `cleanText`. -/
def collapseNl (l : List Char) : List Char :=
  collapseNlGo 0 l

/-- Collapses every maximal nonempty run of characters satisfying `p` into a
single space.  `pending` records whether a run is currently open. -/
def collapseRunsGo (p : Char → Bool) (pending : Bool) : List Char → List Char
  | [] => if pending then [' '] else []
  | c :: rest =>
    if p c then collapseRunsGo p true rest
    else (if pending then [' '] else []) ++ c :: collapseRunsGo p false rest

/-- Collapses runs of `p`-characters to single spaces. -/
def collapseRuns (p : Char → Bool) (l : List Char) : List Char :=
  collapseRunsGo p false l

/-- `text.replace(/[ \t]+/g, ' ')` from `cleanText`. -/
def collapseSp (l : List Char) : List Char :=
  collapseRuns isSpaceTab l

/-- `text.split('\n')` on character lists; always returns at least one line. -/
def splitNl : List Char → List (List Char)
  | [] => [[]]
  | c :: rest =>
    let r := splitNl rest
    if c = '\n' then [] :: r
    else (c :: r.headI) :: r.tail

/-- Removes the trailing run of whitespace characters. -/
def trimRight : List Char → List Char
  | [] => []
  | c :: rest =>
    let r := trimRight rest
    if r = [] && c.isWhitespace then [] else c :: r

/-- JavaScript `String.prototype.trim` on character lists: removes leading and
trailing whitespace. -/
def trimChars (l : List Char) : List Char :=
  trimRight (l.dropWhile fun c => c.isWhitespace)

/-- `lines.join('\n')` on character lists. -/
def joinNl : List (List Char) → List Char
  | [] => []
  | [ln] => ln
  | ln :: ln2 :: lns => ln ++ '\n' :: joinNl (ln2 :: lns)

/-- `cleanText` from `parser.ts`: collapse newline runs, collapse space/tab
runs, trim every line, and trim the whole string. -/
def cleanText (text : String) : String :=
  ⟨trimChars (joinNl ((splitNl (collapseSp (collapseNl text.data))).map trimChars))⟩

/-- JavaScript `s.trim()` on strings, via `trimChars`. -/
def strTrim (s : String) : String :=
  ⟨trimChars s.data⟩

/-! ## Document deduplication (the "documents" channel reducer) -/

/-- Modelled from the spec: document-signature normalization used by the
Document Deduplicator (its implementation file `retrieval_graph/state.ts` is
not among the sources).  Normalization lower-cases the content and collapses
whitespace runs to single spaces. -/
def normalizeContent (s : String) : String :=
  ⟨collapseRuns (fun c => c.isWhitespace) (s.data.map Char.toLower)⟩

/-- A document as the data model describes it: id, content and source.  Other
metadata plays no role in deduplication. -/
structure Doc where
  id : String
  content : String
  source : String
deriving DecidableEq, Repr

/-- The document signature `(normalize(content), source)`, the secondary
dedup key. -/
def docSig (d : Doc) : String × String :=
  (normalizeContent d.content, d.source)

/-- Modelled from the spec: processing of one incoming document against the
accumulated set, in the fixed priority order of §4.4 — drop on shared id,
otherwise drop on shared signature, otherwise add. -/
def addDoc (acc : List Doc) (d : Doc) : List Doc :=
  if ∃ e ∈ acc, e.id = d.id then acc
  else if ∃ e ∈ acc, docSig e = docSig d then acc
  else acc ++ [d]

/-- Modelled from the spec: the "documents" channel reducer
`reduce(existing, incoming)`, folding every incoming document through
`addDoc`. -/
def reduceDocs (existing incoming : List Doc) : List Doc :=
  incoming.foldl addDoc existing

/-- Deduplication of a document list from an empty accumulated set. -/
def dedupDocs (docs : List Doc) : List Doc :=
  reduceDocs [] docs

/-! ## Conditional router and graph executor -/

/-- The two outcomes of the continue-vs-respond router. -/
inductive Route where
  | respond
  | continueResearch
deriving DecidableEq, Repr

/-- The portion of shared state the router and executor consult. -/
structure GState where
  stepCounter : Nat
  researchPlan : List String
deriving DecidableEq, Repr

/-- Modelled from the spec: the Conditional Router of §4.5, a pure function of
the state returning `respond` when StepCounter ≥ length of ResearchPlan and
`continueResearch` otherwise. -/
def checkFinished (s : GState) : Route :=
  if s.researchPlan.length ≤ s.stepCounter then Route.respond
  else Route.continueResearch

/-- The error taxonomy of §7 relevant to the claims. -/
inductive GraphError where
  | loopBudgetExceeded
  | fanOutTaskError (failureCount : Nat)
deriving DecidableEq, Repr

/-- Modelled from the spec: the Graph Executor's research loop of §4.2 with the
step budget of invariant 4.  Each call is one step attempt: if executing the
step would push StepCounter past the budget the invocation fails with
`LoopBudgetExceededError`; otherwise the step runs (StepCounter increments)
and the router picks continue or respond.  The second component counts the
step attempts made, the failing one included. -/
def invokeSteps (router : GState → Route) (budget : Nat) (s : GState) :
    Except GraphError GState × Nat :=
  if budget < s.stepCounter + 1 then
    (Except.error GraphError.loopBudgetExceeded, 1)
  else
    let s2 : GState := { s with stepCounter := s.stepCounter + 1 }
    match router s2 with
    | Route.respond => (Except.ok s2, 1)
    | Route.continueResearch =>
      let r := invokeSteps router budget s2
      (r.1, r.2 + 1)
termination_by budget + 1 - s.stepCounter
decreasing_by omega

/-! ## Fan-out / fan-in coordinator -/

/-- Modelled from the spec: fan-in of the branch results of one fan-out step
(§4.3).  A branch result of `none` is a branch that raised: it is excluded
from the merge.  If every branch of a nonempty fan-out failed, the whole step
fails with `FanOutTaskError` carrying the failure count; otherwise the
surviving outputs are folded through the channel's reducer. -/
def fanOutFanIn {α β : Type} (reducer : β → α → β) (init : β)
    (results : List (Option α)) : Except GraphError β :=
  let successes := results.filterMap id
  if !results.isEmpty && successes.isEmpty then
    Except.error (GraphError.fanOutTaskError (results.countP fun r => r.isNone))
  else
    Except.ok (successes.foldl reducer init)

/-- One fan-out branch's partial update, tagged with the `correlationIndex`
that preserves the original dispatch position. -/
structure Branch (α : Type) where
  correlationIndex : Nat
  update : α
deriving DecidableEq, Repr

instance {α : Type} :
    IsTotal (Branch α) (fun a b => a.correlationIndex ≤ b.correlationIndex) :=
  ⟨fun a b => Nat.le_total a.correlationIndex b.correlationIndex⟩

instance {α : Type} :
    IsTrans (Branch α) (fun a b => a.correlationIndex ≤ b.correlationIndex) :=
  ⟨fun _ _ _ h h2 => Nat.le_trans h h2⟩

instance {α : Type} :
    IsAntisymm (Branch α) (fun a b => a.correlationIndex < b.correlationIndex) :=
  ⟨fun _ _ h h2 => absurd h2 (Nat.lt_asymm h)⟩

/-- Modelled from the spec: branch outputs are merged in `correlationIndex`
order, not completion order. -/
def sortByCorrelation {α : Type} (l : List (Branch α)) : List (Branch α) :=
  List.insertionSort (fun a b => a.correlationIndex ≤ b.correlationIndex) l

/-- Modelled from the spec: the coordinator's fan-in merge of one channel —
sort the branch updates by `correlationIndex`, then fold them through the
channel's reducer. -/
def mergeFanIn {α β : Type} (reducer : β → α → β) (init : β)
    (branches : List (Branch α)) : β :=
  (sortByCorrelation branches).foldl (fun acc br => reducer acc br.update) init

/-! ## Playwright loader (from `loadFromPlaywright` in the ingest sources) -/

/-- A loaded document: rendered page content plus string metadata, modelled
as an association list (later entries override earlier ones on lookup,
mirroring JavaScript object spread). -/
structure LoadedDoc where
  pageContent : String
  metadata : List (String × String)
deriving DecidableEq, Repr

/-- Object spread `{ ...base, ...extra }`: keys of `extra` win. -/
def mergeMeta (base extra : List (String × String)) :
    List (String × String) :=
  base.filter (fun kv => !(extra.any fun kv2 => kv2.1 == kv.1)) ++ extra

/-- Metadata lookup. -/
def getMeta (m : List (String × String)) (k : String) : Option String :=
  (m.find? fun kv => kv.1 == k).map fun kv => kv.2

/-- The body of `loadFromPlaywright`'s per-URL loop.  `loadPage` stands for
`PlaywrightWebBaseLoader.load()`, with `none` for a thrown error (the loop
catches it and continues).  A URL is skipped when the loader returns no
document, the first document's `pageContent` is empty, or the extracted text
is empty after trimming; otherwise a document is pushed whose metadata spreads
`{ source: url, ...docs[0].metadata, ...extractedMetadata }`. -/
def processUrl (loadPage : String → Option (List LoadedDoc))
    (extractor : String → String) (shouldExtractMetadata : Bool)
    (metaOf : String → List (String × String)) (url : String) :
    Option LoadedDoc :=
  match loadPage url with
  | none => none
  | some docs =>
    match docs with
    | [] => none
    | firstDoc :: _ =>
      if firstDoc.pageContent = "" then none
      else
        let html := firstDoc.pageContent
        let extractedText := extractor html
        if strTrim extractedText = "" then none
        else
          let extraMeta := if shouldExtractMetadata then metaOf html else []
          some { pageContent := extractedText,
                 metadata :=
                   mergeMeta (mergeMeta [("source", url)] firstDoc.metadata)
                     extraMeta }

/-- `loadFromPlaywright` from the ingest sources.  The URL list is cut by
`urls.slice(0, maxPages)` only when `maxPages` is truthy in the source's
conditional, so an absent `maxPages` and a `maxPages` of `0` both load every
URL. -/
def loadFromPlaywright (loadPage : String → Option (List LoadedDoc))
    (extractor : String → String) (maxPages : Option Nat)
    (shouldExtractMetadata : Bool)
    (metaOf : String → List (String × String)) (urls : List String) :
    List LoadedDoc :=
  let urlsToLoad :=
    match maxPages with
    | some m => if m = 0 then urls else urls.take m
    | none => urls
  urlsToLoad.filterMap
    (processUrl loadPage extractor shouldExtractMetadata metaOf)

/-! ## Whitespace adjacency predicates for `cleanText` -/

/-- No two adjacent characters are both plain spaces. -/
def noSpacePair (a b : Char) : Prop :=
  ¬(a = ' ' ∧ b = ' ')

/-- No space character sits next to a newline on either side. -/
def noSpaceNewlinePair (a b : Char) : Prop :=
  ¬(a = ' ' ∧ b = '\n') ∧ ¬(a = '\n' ∧ b = ' ')

/-! ## Deduplication lemmas -/

theorem pairwise_addDoc (acc : List Doc) (d : Doc)
    (h : acc.Pairwise fun a b => a.id ≠ b.id ∧ docSig a ≠ docSig b) :
    (addDoc acc d).Pairwise fun a b => a.id ≠ b.id ∧ docSig a ≠ docSig b := by
  unfold addDoc
  split
  · exact h
  split
  · exact h
  next h1 h2 =>
    rw [List.pairwise_append]
    refine ⟨h, List.pairwise_singleton _ _, ?_⟩
    intro a ha b hb
    rw [List.mem_singleton] at hb
    subst hb
    push_neg at h1 h2
    exact ⟨h1 a ha, h2 a ha⟩

theorem pairwise_foldl_addDoc :
    ∀ (l acc : List Doc),
      acc.Pairwise (fun a b => a.id ≠ b.id ∧ docSig a ≠ docSig b) →
      (l.foldl addDoc acc).Pairwise fun a b => a.id ≠ b.id ∧ docSig a ≠ docSig b
  | [], _, h => h
  | d :: t, acc, h => pairwise_foldl_addDoc t (addDoc acc d) (pairwise_addDoc acc d h)

theorem foldl_addDoc_of_fresh :
    ∀ (l acc : List Doc),
      l.Pairwise (fun a b => a.id ≠ b.id ∧ docSig a ≠ docSig b) →
      (∀ a ∈ acc, ∀ b ∈ l, a.id ≠ b.id ∧ docSig a ≠ docSig b) →
      l.foldl addDoc acc = acc ++ l
  | [], acc, _, _ => by simp
  | d :: t, acc, hp, hc => by
    have hid : ¬ ∃ e ∈ acc, e.id = d.id := by
      rintro ⟨e, he, heq⟩
      exact (hc e he d (List.mem_cons_self d t)).1 heq
    have hsig : ¬ ∃ e ∈ acc, docSig e = docSig d := by
      rintro ⟨e, he, heq⟩
      exact (hc e he d (List.mem_cons_self d t)).2 heq
    have hstep : addDoc acc d = acc ++ [d] := by simp [addDoc, hid, hsig]
    have hcross : ∀ a ∈ acc ++ [d], ∀ b ∈ t, a.id ≠ b.id ∧ docSig a ≠ docSig b := by
      intro a ha b hb
      rcases List.mem_append.mp ha with h | h
      · exact hc a h b (List.mem_cons_of_mem d hb)
      · rw [List.mem_singleton] at h
        subst h
        exact (List.pairwise_cons.mp hp).1 b hb
    rw [List.foldl_cons, hstep,
      foldl_addDoc_of_fresh t (acc ++ [d]) (List.Pairwise.of_cons hp) hcross,
      List.append_assoc]
    rfl

/-! ## Executor lemmas -/

theorem invokeSteps_always_continue :
    ∀ (k budget c : Nat) (plan : List String), c + k = budget →
      invokeSteps (fun _ => Route.continueResearch) budget ⟨c, plan⟩
        = (Except.error GraphError.loopBudgetExceeded, k + 1) := by
  intro k
  induction k with
  | zero =>
    intro budget c plan h
    rw [invokeSteps]
    have : budget < c + 1 := by omega
    simp [this]
  | succ n ih =>
    intro budget c plan h
    rw [invokeSteps]
    have hcond : ¬ budget < c + 1 := by omega
    rw [if_neg hcond]
    have hrec := ih budget (c + 1) plan (by omega)
    simp only at hrec ⊢
    rw [hrec]

theorem invokeSteps_counter_le :
    ∀ (n : Nat) (router : GState → Route) (budget : Nat) (s s2 : GState),
      budget + 1 - s.stepCounter = n →
      (invokeSteps router budget s).1 = Except.ok s2 →
      s.stepCounter ≤ s2.stepCounter := by
  intro n
  induction n with
  | zero =>
    intro router budget s s2 hn h
    obtain ⟨c, plan⟩ := s
    rw [invokeSteps] at h
    have : budget < c + 1 := by
      simp only [GState.stepCounter] at hn ⊢
      omega
    rw [if_pos this] at h
    cases h
  | succ n ih =>
    intro router budget s s2 hn h
    obtain ⟨c, plan⟩ := s
    simp only [GState.stepCounter] at hn ⊢
    rw [invokeSteps] at h
    by_cases hb : budget < c + 1
    · rw [if_pos hb] at h
      cases h
    · rw [if_neg hb] at h
      simp only at h
      cases hr : router ⟨c + 1, plan⟩ with
      | respond =>
        rw [hr] at h
        simp only at h
        have : (⟨c + 1, plan⟩ : GState) = s2 := by
          cases h
          rfl
        rw [← this]
        simp only [GState.stepCounter]
        omega
      | continueResearch =>
        rw [hr] at h
        simp only at h
        have hrec :
            (invokeSteps router budget ⟨c + 1, plan⟩).1 = Except.ok s2 := h
        have := ih router budget ⟨c + 1, plan⟩ s2 (by simp only [GState.stepCounter]; omega) hrec
        simp only [GState.stepCounter] at this
        omega

/-! ## Claim C1: fan-out partial failure policy -/

/-- C1: an individual fan-out branch's failure is excluded from the merge
while the surviving branches all merge and the step completes without error
(shown in general and for the 3-branch example with branch 2 failing), and a
nonempty fan-out whose branches all fail surfaces `FanOutTaskError` carrying
the failure count. -/
theorem c1_fanout_partial_failure :
    (∀ (α β : Type) (reducer : β → α → β) (init : β)
        (results : List (Option α)),
        (∃ r ∈ results, r.isSome) →
        fanOutFanIn reducer init results
          = Except.ok ((results.filterMap id).foldl reducer init)) ∧
    (∀ (α β : Type) (reducer : β → α → β) (init : β) (u1 u3 : α),
        fanOutFanIn reducer init [some u1, none, some u3]
          = Except.ok (reducer (reducer init u1) u3)) ∧
    (∀ (α β : Type) (reducer : β → α → β) (init : β)
        (results : List (Option α)),
        results ≠ [] → (∀ r ∈ results, r = none) →
        fanOutFanIn reducer init results
          = Except.error (GraphError.fanOutTaskError results.length)) := by
  refine ⟨?_, ?_, ?_⟩
  · intro α β reducer init results h
    obtain ⟨r, hr, hsome⟩ := h
    obtain ⟨a, rfl⟩ := Option.isSome_iff_exists.mp hsome
    have hmem : a ∈ results.filterMap id :=
      List.mem_filterMap.mpr ⟨some a, hr, rfl⟩
    have hne : results.filterMap id ≠ [] := List.ne_nil_of_mem hmem
    simp [fanOutFanIn, List.isEmpty_iff, hne]
  · intro α β reducer init u1 u3
    rfl
  · intro α β reducer init results hne hall
    have h1 : results.filterMap id = [] := by
      rw [List.filterMap_eq_nil_iff]
      intro a ha
      rw [hall a ha]
      rfl
    have h2 : results.countP (fun r => r.isNone) = results.length := by
      rw [List.countP_eq_length]
      intro a ha
      rw [hall a ha]
      rfl
    simp [fanOutFanIn, h1, h2, List.isEmpty_iff, hne]

/-- Witness for C1 at concrete inputs. -/
theorem c1_fanout_partial_failure_witness :
    fanOutFanIn (fun (acc : List Nat) (u : Nat) => acc ++ [u]) []
        [some 1, none, some 3]
      = Except.ok [1, 3] ∧
    fanOutFanIn (fun (acc : List Nat) (u : Nat) => acc ++ [u]) []
        [none, none]
      = Except.error (GraphError.fanOutTaskError 2) := by
  constructor
  · exact c1_fanout_partial_failure.1 Nat (List Nat) _ []
      [some 1, none, some 3] ⟨some 1, by decide, by decide⟩
  · exact c1_fanout_partial_failure.2.2 Nat (List Nat) _ [] [none, none]
      (by decide) (by decide)

/-! ## Claim C2: dedup idempotence -/

/-- C2: the documents reducer is idempotent — deduplicating its own output
changes nothing. -/
theorem c2_dedup_idempotent (docs : List Doc) :
    dedupDocs (dedupDocs docs) = dedupDocs docs := by
  have hp := pairwise_foldl_addDoc docs [] List.Pairwise.nil
  have h := foldl_addDoc_of_fresh (dedupDocs docs) [] hp
    (by intro a ha b hb; cases ha)
  simpa [dedupDocs, reduceDocs] using h

/-! ## Claim C3: dedup priority order -/

/-- C3: each incoming document is processed against the accumulated set in
fixed priority order — dropped on a shared id, otherwise dropped on a shared
signature, otherwise added — and two documents with the same id merge to the
first one processed. -/
theorem c3_dedup_priority_order :
    (∀ (acc : List Doc) (d : Doc),
        (∃ e ∈ acc, e.id = d.id) → addDoc acc d = acc) ∧
    (∀ (acc : List Doc) (d : Doc),
        ¬(∃ e ∈ acc, e.id = d.id) → (∃ e ∈ acc, docSig e = docSig d) →
        addDoc acc d = acc) ∧
    (∀ (acc : List Doc) (d : Doc),
        ¬(∃ e ∈ acc, e.id = d.id) → ¬(∃ e ∈ acc, docSig e = docSig d) →
        addDoc acc d = acc ++ [d]) ∧
    dedupDocs [⟨"1", "A", "s"⟩, ⟨"1", "B", "s"⟩] = [⟨"1", "A", "s"⟩] := by
  refine ⟨?_, ?_, ?_, by decide⟩
  · intro acc d h
    simp [addDoc, h]
  · intro acc d h1 h2
    simp [addDoc, h1, h2]
  · intro acc d h1 h2
    simp [addDoc, h1, h2]

/-- Witness for C3 at concrete inputs. -/
theorem c3_dedup_priority_order_witness :
    addDoc [⟨"1", "A", "s"⟩] ⟨"1", "B", "s"⟩ = [⟨"1", "A", "s"⟩] :=
  c3_dedup_priority_order.1 [⟨"1", "A", "s"⟩] ⟨"1", "B", "s"⟩
    ⟨⟨"1", "A", "s"⟩, by decide, by decide⟩

/-! ## Claim C4: conditional router decision rule -/

/-- C4: the Conditional Router is a pure function of the state returning
`respond` exactly when StepCounter ≥ length of ResearchPlan, and with a plan
of length 3 it continues at counters 0, 1, 2 and responds at 3. -/
theorem c4_router_decision :
    (∀ s : GState,
        checkFinished s = Route.respond ↔
          s.researchPlan.length ≤ s.stepCounter) ∧
    (∀ s : GState,
        checkFinished s = Route.continueResearch ↔
          s.stepCounter < s.researchPlan.length) ∧
    (∀ plan : List String, plan.length = 3 →
        checkFinished ⟨0, plan⟩ = Route.continueResearch ∧
        checkFinished ⟨1, plan⟩ = Route.continueResearch ∧
        checkFinished ⟨2, plan⟩ = Route.continueResearch ∧
        checkFinished ⟨3, plan⟩ = Route.respond) := by
  refine ⟨?_, ?_, ?_⟩
  · intro s
    by_cases h : s.researchPlan.length ≤ s.stepCounter <;>
      simp [checkFinished, h]
  · intro s
    by_cases h : s.researchPlan.length ≤ s.stepCounter
    · simp [checkFinished, h]
    · simp [checkFinished, h]
      omega
  · intro plan h
    refine ⟨?_, ?_, ?_, ?_⟩ <;> simp [checkFinished, h]

/-- Witness for C4 with a concrete 3-step plan. -/
theorem c4_router_decision_witness :
    checkFinished ⟨0, ["a", "b", "c"]⟩ = Route.continueResearch ∧
    checkFinished ⟨1, ["a", "b", "c"]⟩ = Route.continueResearch ∧
    checkFinished ⟨2, ["a", "b", "c"]⟩ = Route.continueResearch ∧
    checkFinished ⟨3, ["a", "b", "c"]⟩ = Route.respond :=
  c4_router_decision.2.2 ["a", "b", "c"] (by decide)

/-! ## Claim C5: loop budget enforcement -/

/-- C5: with step budget 5 and a router that always continues, the invocation
fails with `LoopBudgetExceededError` exactly at the 6th step attempt (and
terminates, being a total function), and for every router the StepCounter of
a successful invocation never decreases. -/
theorem c5_loop_budget_enforced :
    (∀ plan : List String,
        invokeSteps (fun _ => Route.continueResearch) 5 ⟨0, plan⟩
          = (Except.error GraphError.loopBudgetExceeded, 6)) ∧
    (∀ (router : GState → Route) (budget : Nat) (s s2 : GState),
        (invokeSteps router budget s).1 = Except.ok s2 →
        s.stepCounter ≤ s2.stepCounter) := by
  constructor
  · intro plan
    exact invokeSteps_always_continue 5 5 0 plan rfl
  · intro router budget s s2 h
    exact invokeSteps_counter_le (budget + 1 - s.stepCounter) router budget s
      s2 rfl h

/-- Witness for C5's monotonicity conjunct on a concrete invocation. -/
theorem c5_loop_budget_enforced_witness :
    (⟨0, []⟩ : GState).stepCounter ≤ (⟨1, []⟩ : GState).stepCounter := by
  have hinv :
      (invokeSteps (fun _ => Route.respond) 5 ⟨0, []⟩).1 = Except.ok ⟨1, []⟩ := by
    rw [invokeSteps]
    simp
  exact c5_loop_budget_enforced.2 (fun _ => Route.respond) 5 ⟨0, []⟩ ⟨1, []⟩ hinv

/-! ## Claim C6: order-independent fan-in merge -/

/-- C6: for every channel reducer and every fixed set of branch updates with
distinct correlation indices, merging in any completion order (the coordinator
sorts by `correlationIndex` first) yields an identical final channel value. -/
theorem c6_merge_order_independent :
    ∀ (α β : Type) (reducer : β → α → β) (init : β)
      (l l2 : List (Branch α)),
      l.Perm l2 → (l.map fun b => b.correlationIndex).Nodup →
      mergeFanIn reducer init l = mergeFanIn reducer init l2 := by
  intro α β reducer init l l2 hp hnd
  have hsorteq : sortByCorrelation l = sortByCorrelation l2 := by
    have hperm : (sortByCorrelation l).Perm (sortByCorrelation l2) :=
      ((List.perm_insertionSort _ l).trans hp).trans
        (List.perm_insertionSort _ l2).symm
    have hne : l.Pairwise fun a b : Branch α =>
        a.correlationIndex ≠ b.correlationIndex :=
      List.pairwise_map.mp hnd
    have hne1 : (sortByCorrelation l).Pairwise fun a b : Branch α =>
        a.correlationIndex ≠ b.correlationIndex :=
      (List.Perm.pairwise_iff (fun h h2 => h h2.symm)
        (List.perm_insertionSort _ l)).mpr hne
    have hne2 : (sortByCorrelation l2).Pairwise fun a b : Branch α =>
        a.correlationIndex ≠ b.correlationIndex :=
      (List.Perm.pairwise_iff (fun h h2 => h h2.symm) hperm).mp hne1
    have hs1 : (sortByCorrelation l).Pairwise fun a b : Branch α =>
        a.correlationIndex ≤ b.correlationIndex :=
      List.sorted_insertionSort _ l
    have hs2 : (sortByCorrelation l2).Pairwise fun a b : Branch α =>
        a.correlationIndex ≤ b.correlationIndex :=
      List.sorted_insertionSort _ l2
    have hlt1 : List.Sorted
        (fun a b : Branch α => a.correlationIndex < b.correlationIndex)
        (sortByCorrelation l) :=
      (hs1.and hne1).imp fun h => Nat.lt_of_le_of_ne h.1 h.2
    have hlt2 : List.Sorted
        (fun a b : Branch α => a.correlationIndex < b.correlationIndex)
        (sortByCorrelation l2) :=
      (hs2.and hne2).imp fun h => Nat.lt_of_le_of_ne h.1 h.2
    exact List.eq_of_perm_of_sorted hperm hlt1 hlt2
  rw [mergeFanIn, mergeFanIn, hsorteq]

/-- Witness for C6: two completion orders of the same two branches merge to
the same value under an order-sensitive reducer. -/
theorem c6_merge_order_independent_witness :
    mergeFanIn (fun acc u => acc * 10 + u) 0 [⟨0, 1⟩, ⟨1, 2⟩]
      = mergeFanIn (fun acc u => acc * 10 + u) 0 [⟨1, 2⟩, ⟨0, 1⟩] :=
  c6_merge_order_independent Nat Nat _ 0 _ _
    (List.Perm.swap (⟨1, 2⟩ : Branch Nat) (⟨0, 1⟩ : Branch Nat) [])
    (by decide)

/-! ## Claim C7: signature normalization -/

/-- C7: signature normalization lower-cases and collapses whitespace, so two
documents with different ids, the same source and contents differing only in
case and whitespace runs merge to exactly one document — shown in general for
normalization-equal contents and on the spec's concrete example. -/
theorem c7_signature_normalization :
    (∀ d1 d2 : Doc, d1.id ≠ d2.id → d1.source = d2.source →
        normalizeContent d1.content = normalizeContent d2.content →
        dedupDocs [d1, d2] = [d1]) ∧
    normalizeContent "Hello World" = "hello world" ∧
    normalizeContent "hello   world" = "hello world" ∧
    dedupDocs [⟨"1", "Hello World", "s"⟩, ⟨"2", "hello   world", "s"⟩]
      = [⟨"1", "Hello World", "s"⟩] := by
  refine ⟨?_, by decide, by decide, by decide⟩
  intro d1 d2 hid hsrc hnorm
  have h1 : addDoc [] d1 = [d1] := by simp [addDoc]
  have hsig : docSig d1 = docSig d2 := by simp [docSig, hnorm, hsrc]
  have h2 : addDoc [d1] d2 = [d1] := by simp [addDoc, hid, hsig]
  simp [dedupDocs, reduceDocs, h1, h2]

/-- Witness for C7 on the spec's concrete duplicate-by-signature example. -/
theorem c7_signature_normalization_witness :
    dedupDocs [⟨"1", "Hello World", "s"⟩, ⟨"2", "hello   world", "s"⟩]
      = [⟨"1", "Hello World", "s"⟩] :=
  c7_signature_normalization.1 ⟨"1", "Hello World", "s"⟩
    ⟨"2", "hello   world", "s"⟩ (by decide) (by decide) (by decide)

/-! ## Claim C8: maxPages cut-off -/

/-- C8 as stated fails: with `maxPages = 0` provided, the source's truthiness
check skips the slice, every URL is processed, and the result can be longer
than `min maxPages urls.length`. -/
theorem c8_maxpages_counterexample :
    ¬ ((loadFromPlaywright (fun _ => some [⟨"x", []⟩]) (fun s => s) (some 0)
          false (fun _ => []) ["u"]).length
        ≤ min 0 (["u"] : List String).length) := by
  decide

/-- C8 amended: when `maxPages` is provided and nonzero only the first
`maxPages` URLs are processed and the result has length at most
`min maxPages urls.length`; when `maxPages` is absent — or zero, which the
source's conditional treats as falsy — every URL is processed. -/
theorem c8_maxpages_amended :
    (∀ (loadPage : String → Option (List LoadedDoc))
        (extractor : String → String) (shouldExtractMetadata : Bool)
        (metaOf : String → List (String × String)) (urls : List String)
        (m : Nat), m ≠ 0 →
        loadFromPlaywright loadPage extractor (some m) shouldExtractMetadata
            metaOf urls
          = (urls.take m).filterMap
              (processUrl loadPage extractor shouldExtractMetadata metaOf) ∧
        (loadFromPlaywright loadPage extractor (some m) shouldExtractMetadata
            metaOf urls).length ≤ min m urls.length) ∧
    (∀ (loadPage : String → Option (List LoadedDoc))
        (extractor : String → String) (shouldExtractMetadata : Bool)
        (metaOf : String → List (String × String)) (urls : List String),
        loadFromPlaywright loadPage extractor none shouldExtractMetadata
            metaOf urls
          = urls.filterMap
              (processUrl loadPage extractor shouldExtractMetadata metaOf) ∧
        loadFromPlaywright loadPage extractor (some 0) shouldExtractMetadata
            metaOf urls
          = urls.filterMap
              (processUrl loadPage extractor shouldExtractMetadata metaOf)) := by
  constructor
  · intro loadPage extractor shouldExtractMetadata metaOf urls m hm
    have heq : loadFromPlaywright loadPage extractor (some m)
        shouldExtractMetadata metaOf urls
        = (urls.take m).filterMap
            (processUrl loadPage extractor shouldExtractMetadata metaOf) := by
      simp [loadFromPlaywright, hm]
    refine ⟨heq, ?_⟩
    rw [heq]
    calc ((urls.take m).filterMap
            (processUrl loadPage extractor shouldExtractMetadata metaOf)).length
        ≤ (urls.take m).length := List.length_filterMap_le _ _
      _ = min m urls.length := List.length_take m urls
  · intro loadPage extractor shouldExtractMetadata metaOf urls
    exact ⟨rfl, rfl⟩

/-- Witness for C8's amended theorem with `maxPages = 1` over two URLs. -/
theorem c8_maxpages_amended_witness :
    loadFromPlaywright (fun _ => some [⟨"x", []⟩]) (fun s => s) (some 1) false
        (fun _ => []) ["u", "v"]
      = ((["u", "v"] : List String).take 1).filterMap
          (processUrl (fun _ => some [⟨"x", []⟩]) (fun s => s) false
            (fun _ => [])) ∧
    (loadFromPlaywright (fun _ => some [⟨"x", []⟩]) (fun s => s) (some 1) false
        (fun _ => []) ["u", "v"]).length
      ≤ min 1 (["u", "v"] : List String).length :=
  c8_maxpages_amended.1 (fun _ => some [⟨"x", []⟩]) (fun s => s) false
    (fun _ => []) ["u", "v"] 1 (by decide)

/-! ## Metadata lemmas and claim C9 -/

theorem getMeta_mergeMeta (b e : List (String × String)) (k : String)
    (h : (getMeta b k).isSome) : (getMeta (mergeMeta b e) k).isSome := by
  rw [getMeta, Option.isSome_map'] at h ⊢
  rw [List.find?_isSome] at h ⊢
  obtain ⟨x, hx, hpx⟩ := h
  have hk : x.1 = k := by simpa using hpx
  by_cases he : ∃ y ∈ e, y.1 == k
  · obtain ⟨y, hy, hpy⟩ := he
    exact ⟨y, List.mem_append_right _ hy, hpy⟩
  · simp only [mergeMeta]
    refine ⟨x, List.mem_append_left _ ?_, hpx⟩
    rw [List.mem_filter]
    refine ⟨hx, ?_⟩
    push_neg at he
    simp only [Bool.not_eq_true', List.any_eq_false]
    intro y hy
    have hyk := he y hy
    simp only [beq_iff_eq]
    rw [hk]
    simpa using hyk

/-- C9: every document returned by `loadFromPlaywright` has extracted page
content that is nonempty after trimming, and its metadata carries a `source`
entry. -/
theorem c9_documents_nonempty_source :
    ∀ (loadPage : String → Option (List LoadedDoc))
      (extractor : String → String) (maxPages : Option Nat)
      (shouldExtractMetadata : Bool)
      (metaOf : String → List (String × String)) (urls : List String)
      (d : LoadedDoc),
      d ∈ loadFromPlaywright loadPage extractor maxPages shouldExtractMetadata
          metaOf urls →
      strTrim d.pageContent ≠ "" ∧ (getMeta d.metadata "source").isSome := by
  intro loadPage extractor maxPages shouldExtractMetadata metaOf urls d hd
  simp only [loadFromPlaywright] at hd
  obtain ⟨url, hurl, hp⟩ := List.mem_filterMap.mp hd
  unfold processUrl at hp
  split at hp
  · cases hp
  next docs =>
    split at hp
    · cases hp
    next firstDoc rest =>
      split at hp
      · cases hp
      next h1 =>
        simp only [] at hp
        split at hp
        · cases hp
        next h2 =>
          injection hp with hp
          subst hp
          exact ⟨h2, getMeta_mergeMeta _ _ _
            (getMeta_mergeMeta _ _ _ (by simp [getMeta]))⟩

/-- Witness for C9 on a concrete single-URL load. -/
theorem c9_documents_nonempty_source_witness :
    strTrim (⟨"x", [("source", "u")]⟩ : LoadedDoc).pageContent ≠ "" ∧
      (getMeta (⟨"x", [("source", "u")]⟩ : LoadedDoc).metadata "source").isSome :=
  c9_documents_nonempty_source (fun _ => some [⟨"x", []⟩]) (fun s => s) none
    false (fun _ => []) ["u"] ⟨"x", [("source", "u")]⟩ (by decide)

/-! ## cleanText lemmas -/

theorem mem_collapseRunsGo (p : Char → Bool) :
    ∀ (l : List Char) (pending : Bool) (c : Char),
      c ∈ collapseRunsGo p pending l → c = ' ' ∨ (c ∈ l ∧ p c = false)
  | [], pending, c, h => by
    rw [collapseRunsGo] at h
    split at h
    · rw [List.mem_singleton] at h
      exact Or.inl h
    · cases h
  | c0 :: rest, pending, c, h => by
    rw [collapseRunsGo] at h
    split at h
    · rcases mem_collapseRunsGo p rest true c h with h | ⟨h1, h2⟩
      · exact Or.inl h
      · exact Or.inr ⟨List.mem_cons_of_mem _ h1, h2⟩
    next hc0 =>
      rcases List.mem_append.mp h with h | h
      · split at h
        · rw [List.mem_singleton] at h
          exact Or.inl h
        · cases h
      · rcases List.mem_cons.mp h with rfl | h
        · exact Or.inr ⟨List.mem_cons_self _ _, by simpa using hc0⟩
        · rcases mem_collapseRunsGo p rest false c h with h | ⟨h1, h2⟩
          · exact Or.inl h
          · exact Or.inr ⟨List.mem_cons_of_mem _ h1, h2⟩

theorem chain'_collapseRunsGo (p : Char → Bool) :
    ∀ (l : List Char) (pending : Bool),
      List.Chain' (fun a b => ¬(p a = true ∧ p b = true))
        (collapseRunsGo p pending l)
  | [], pending => by
    rw [collapseRunsGo]
    split
    · exact List.chain'_singleton _
    · exact List.chain'_nil
  | c0 :: rest, pending => by
    rw [collapseRunsGo]
    split
    · exact chain'_collapseRunsGo p rest true
    next hc0 =>
      have hc0f : p c0 = false := by simpa using hc0
      have hcons : List.Chain' (fun a b => ¬(p a = true ∧ p b = true))
          (c0 :: collapseRunsGo p false rest) := by
        refine List.Chain'.cons' (chain'_collapseRunsGo p rest false) ?_
        intro y _ hand
        rw [hc0f] at hand
        exact Bool.false_ne_true hand.1
      split
      · refine List.Chain'.append (List.chain'_singleton _) hcons ?_
        intro x hx y hy
        rw [List.head?_cons, Option.mem_def, Option.some.injEq] at hy
        subst hy
        intro hand
        rw [hc0f] at hand
        exact Bool.false_ne_true hand.2
      · exact hcons

theorem splitNl_ne_nil : ∀ l : List Char, splitNl l ≠ []
  | [] => by simp [splitNl]
  | c :: rest => by
    simp only [splitNl]
    split
    · exact List.cons_ne_nil _ _
    · exact List.cons_ne_nil _ _

theorem cons_headI_tail :
    ∀ {l : List (List Char)}, l ≠ [] → l.headI :: l.tail = l
  | [], h => absurd rfl h
  | _ :: _, _ => rfl

theorem splitNl_headI_head :
    ∀ l : List Char,
      (splitNl l).headI.head? = none ∨ (splitNl l).headI.head? = l.head?
  | [] => Or.inl rfl
  | c :: rest => by
    simp only [splitNl]
    split
    · exact Or.inl rfl
    · exact Or.inr rfl

theorem splitNl_line_mem :
    ∀ (l ln : List Char) (c : Char),
      ln ∈ splitNl l → c ∈ ln → c ∈ l ∧ c ≠ '\n'
  | [], ln, c, hln, hc => by
    simp only [splitNl, List.mem_singleton] at hln
    subst hln
    cases hc
  | c0 :: rest, ln, c, hln, hc => by
    simp only [splitNl] at hln
    split at hln
    · rcases List.mem_cons.mp hln with rfl | h
      · cases hc
      · have h2 := splitNl_line_mem rest ln c h hc
        exact ⟨List.mem_cons_of_mem _ h2.1, h2.2⟩
    next hc0 =>
      rcases List.mem_cons.mp hln with rfl | h
      · rcases List.mem_cons.mp hc with rfl | h2
        · exact ⟨List.mem_cons_self _ _, hc0⟩
        · have hmem : (splitNl rest).headI ∈ splitNl rest := by
            rw [← cons_headI_tail (splitNl_ne_nil rest)]
            exact List.mem_cons_self _ _
          have h3 := splitNl_line_mem rest _ c hmem h2
          exact ⟨List.mem_cons_of_mem _ h3.1, h3.2⟩
      · have h3 : ln ∈ splitNl rest := by
          rw [← cons_headI_tail (splitNl_ne_nil rest)]
          exact List.mem_cons_of_mem _ h
        have h4 := splitNl_line_mem rest ln c h3 hc
        exact ⟨List.mem_cons_of_mem _ h4.1, h4.2⟩

theorem splitNl_line_chain (R : Char → Char → Prop) :
    ∀ l : List Char, List.Chain' R l → ∀ ln ∈ splitNl l, List.Chain' R ln
  | [], _, ln, hln => by
    simp only [splitNl, List.mem_singleton] at hln
    subst hln
    exact List.chain'_nil
  | c0 :: rest, hch, ln, hln => by
    obtain ⟨hhead, htail⟩ := List.chain'_cons'.mp hch
    simp only [splitNl] at hln
    split at hln
    · rcases List.mem_cons.mp hln with rfl | h
      · exact List.chain'_nil
      · exact splitNl_line_chain R rest htail ln h
    · rcases List.mem_cons.mp hln with rfl | h
      · have hmem : (splitNl rest).headI ∈ splitNl rest := by
          rw [← cons_headI_tail (splitNl_ne_nil rest)]
          exact List.mem_cons_self _ _
        refine List.Chain'.cons' (splitNl_line_chain R rest htail _ hmem) ?_
        intro y hy
        rcases splitNl_headI_head rest with hnone | hsame
        · rw [hnone] at hy
          simp at hy
        · rw [hsame] at hy
          exact hhead y hy
      · have h3 : ln ∈ splitNl rest := by
          rw [← cons_headI_tail (splitNl_ne_nil rest)]
          exact List.mem_cons_of_mem _ h
        exact splitNl_line_chain R rest htail ln h3

theorem trimRight_eq_nil_or_head :
    ∀ l : List Char, trimRight l = [] ∨ (trimRight l).head? = l.head?
  | [] => Or.inl rfl
  | c :: rest => by
    simp only [trimRight]
    split
    · exact Or.inl rfl
    · exact Or.inr rfl

theorem trimRight_getLast_not_ws :
    ∀ (l : List Char) (c : Char),
      (trimRight l).getLast? = some c → c.isWhitespace = false
  | [], c, h => Option.noConfusion h
  | c0 :: rest, c, h => by
    simp only [trimRight] at h
    split at h
    · exact Option.noConfusion h
    next hcond =>
      rcases heq : trimRight rest with _ | ⟨a, t⟩
      · rw [heq] at h
        simp only [List.getLast?_singleton, Option.some.injEq] at h
        subst h
        rw [heq] at hcond
        simpa using hcond
      · rw [heq] at h
        rw [List.getLast?_cons_cons] at h
        rw [← heq] at h
        exact trimRight_getLast_not_ws rest c h

theorem trimRight_exists_append :
    ∀ l : List Char, ∃ t, trimRight l ++ t = l
  | [] => ⟨[], rfl⟩
  | c :: rest => by
    simp only [trimRight]
    split
    · exact ⟨c :: rest, rfl⟩
    · obtain ⟨t, ht⟩ := trimRight_exists_append rest
      exact ⟨t, by rw [List.cons_append, ht]⟩

theorem head_dropWhile_not (p : Char → Bool) :
    ∀ (l : List Char) (c : Char),
      (l.dropWhile p).head? = some c → p c = false
  | [], c, h => Option.noConfusion h
  | c0 :: rest, c, h => by
    rw [List.dropWhile_cons] at h
    split at h
    · exact head_dropWhile_not p rest c h
    next hc0 =>
      simp only [List.head?_cons, Option.some.injEq] at h
      subst h
      simpa using hc0

theorem trimChars_head_not_ws (l : List Char) (c : Char)
    (h : (trimChars l).head? = some c) : c.isWhitespace = false := by
  rw [trimChars] at h
  rcases trimRight_eq_nil_or_head (l.dropWhile fun c => c.isWhitespace)
    with hnil | hhead
  · rw [hnil] at h
    exact Option.noConfusion h
  · rw [hhead] at h
    exact head_dropWhile_not _ l c h

theorem trimChars_getLast_not_ws (l : List Char) (c : Char)
    (h : (trimChars l).getLast? = some c) : c.isWhitespace = false :=
  trimRight_getLast_not_ws _ c h

theorem chain'_trimChars (R : Char → Char → Prop) (l : List Char)
    (h : List.Chain' R l) : List.Chain' R (trimChars l) := by
  have h1 : List.Chain' R (l.dropWhile fun c => c.isWhitespace) := by
    have heq := List.takeWhile_append_dropWhile (fun c => c.isWhitespace) l
    rw [← heq] at h
    exact h.right_of_append
  obtain ⟨t, ht⟩ :=
    trimRight_exists_append (l.dropWhile fun c => c.isWhitespace)
  rw [← ht] at h1
  exact h1.left_of_append

theorem mem_trimChars (l : List Char) (c : Char) (h : c ∈ trimChars l) :
    c ∈ l := by
  obtain ⟨t, ht⟩ :=
    trimRight_exists_append (l.dropWhile fun c => c.isWhitespace)
  have h1 : c ∈ l.dropWhile fun c => c.isWhitespace := by
    rw [← ht]
    exact List.mem_append_left _ h
  have heq := List.takeWhile_append_dropWhile (fun c => c.isWhitespace) l
  rw [← heq]
  exact List.mem_append_right _ h1

theorem mem_joinNl :
    ∀ (M : List (List Char)) (c : Char),
      c ∈ joinNl M → c = '\n' ∨ ∃ ln ∈ M, c ∈ ln
  | [], c, h => absurd h (List.not_mem_nil c)
  | [ln], c, h => Or.inr ⟨ln, List.mem_singleton_self ln, h⟩
  | ln :: ln2 :: lns, c, h => by
    rw [joinNl] at h
    rcases List.mem_append.mp h with h | h
    · exact Or.inr ⟨ln, List.mem_cons_self _ _, h⟩
    · rcases List.mem_cons.mp h with rfl | h
      · exact Or.inl rfl
      · rcases mem_joinNl (ln2 :: lns) c h with h | ⟨ln3, h3, hc⟩
        · exact Or.inl h
        · exact Or.inr ⟨ln3, List.mem_cons_of_mem _ h3, hc⟩

theorem joinNl_head (ln : List Char) (lns : List (List Char)) :
    (joinNl (ln :: lns)).head? = none ∨
    (joinNl (ln :: lns)).head? = some '\n' ∨
    (joinNl (ln :: lns)).head? = ln.head? := by
  cases lns with
  | nil => exact Or.inr (Or.inr rfl)
  | cons l2 ls =>
    cases ln with
    | nil => exact Or.inr (Or.inl rfl)
    | cons a t => exact Or.inr (Or.inr rfl)

theorem chain'_joinNl (R : Char → Char → Prop) (hnl : R '\n' '\n') :
    ∀ M : List (List Char),
      (∀ ln ∈ M, List.Chain' R ln) →
      (∀ ln ∈ M, ∀ c, ln.getLast? = some c → R c '\n') →
      (∀ ln ∈ M, ∀ c, ln.head? = some c → R '\n' c) →
      List.Chain' R (joinNl M)
  | [], _, _, _ => List.chain'_nil
  | [ln], hc, _, _ => hc ln (List.mem_singleton_self ln)
  | ln :: ln2 :: lns, hc, hlast, hhead => by
    rw [joinNl]
    refine List.Chain'.append (hc ln (List.mem_cons_self _ _)) ?_ ?_
    · refine List.Chain'.cons'
        (chain'_joinNl R hnl (ln2 :: lns)
          (fun l h => hc l (List.mem_cons_of_mem _ h))
          (fun l h => hlast l (List.mem_cons_of_mem _ h))
          (fun l h => hhead l (List.mem_cons_of_mem _ h))) ?_
      intro y hy
      rcases joinNl_head ln2 lns with h | h | h
      · rw [h] at hy
        simp at hy
      · rw [h] at hy
        rw [Option.mem_def, Option.some.injEq] at hy
        subst hy
        exact hnl
      · rw [h] at hy
        exact hhead ln2 (List.mem_cons_of_mem _ (List.mem_cons_self _ _)) y
          (Option.mem_def.mp hy)
    · intro x hx y hy
      rw [List.head?_cons, Option.mem_def, Option.some.injEq] at hy
      subst hy
      exact hlast ln (List.mem_cons_self _ _) x (Option.mem_def.mp hx)

theorem chain'_of_mem_rel (R : Char → Char → Prop) :
    ∀ l : List Char, (∀ a ∈ l, ∀ b ∈ l, R a b) → List.Chain' R l
  | [], _ => List.chain'_nil
  | c :: rest, h => by
    refine List.Chain'.cons' (chain'_of_mem_rel R rest ?_) ?_
    · intro a ha b hb
      exact h a (List.mem_cons_of_mem _ ha) b (List.mem_cons_of_mem _ hb)
    · intro y hy
      have hm : y ∈ rest := List.mem_of_mem_head? hy
      exact h c (List.mem_cons_self _ _) y (List.mem_cons_of_mem _ hm)

theorem splitNl_tail_trimmed :
    ∀ l : List Char,
      List.Chain' noSpaceNewlinePair l → l.getLast? ≠ some ' ' →
      ((splitNl l).headI.getLast? ≠ some ' ') ∧
      (∀ ln ∈ (splitNl l).tail,
        ln.head? ≠ some ' ' ∧ ln.getLast? ≠ some ' ')
  | [] => by
    intro _ _
    constructor
    · simp [splitNl]
    · simp [splitNl]
  | c0 :: rest => by
    intro hch hlast
    obtain ⟨hhead, htail⟩ := List.chain'_cons'.mp hch
    have hrlast : rest.getLast? ≠ some ' ' := by
      cases rest with
      | nil => simp
      | cons a t =>
        rw [List.getLast?_cons_cons] at hlast
        exact hlast
    by_cases hc0 : c0 = '\n'
    · subst hc0
      have hih := splitNl_tail_trimmed rest htail hrlast
      constructor
      · simp [splitNl]
      · simp only [splitNl, if_pos rfl, List.tail_cons]
        intro ln hln
        rw [← cons_headI_tail (splitNl_ne_nil rest)] at hln
        rcases List.mem_cons.mp hln with rfl | h
        · refine ⟨?_, hih.1⟩
          rcases splitNl_headI_head rest with hnone | hsame
          · rw [hnone]
            simp
          · rw [hsame]
            intro hsp
            have hmem : ' ' ∈ rest.head? := Option.mem_def.mpr hsp
            exact (hhead ' ' hmem).2 ⟨rfl, rfl⟩
        · exact hih.2 ln h
    · have hsplit : splitNl (c0 :: rest)
          = (c0 :: (splitNl rest).headI) :: (splitNl rest).tail := by
        simp [splitNl, hc0]
      rw [hsplit]
      cases rest with
      | nil =>
        constructor
        · simpa [splitNl] using hlast
        · simp [splitNl]
      | cons d t =>
        have hih := splitNl_tail_trimmed (d :: t) htail hrlast
        constructor
        · simp only [List.headI_cons]
          rcases hh : (splitNl (d :: t)).headI with _ | ⟨a, t2⟩
          · have hd : d = '\n' := by
              by_contra hd
              have hne : (splitNl (d :: t)).headI
                  = d :: (splitNl t).headI := by
                simp [splitNl, hd]
              rw [hne] at hh
              cases hh
            have hdm : d ∈ (d :: t).head? := by
              rw [List.head?_cons]
              rfl
            intro hsp
            rw [List.getLast?_singleton, Option.some.injEq] at hsp
            exact (hhead d hdm).1 ⟨hsp, hd⟩
          · rw [List.getLast?_cons_cons]
            rw [← hh]
            exact hih.1
        · simp only [List.tail_cons]
          exact hih.2

theorem splitNl_all_trimmed (l : List Char)
    (hch : List.Chain' noSpaceNewlinePair l)
    (hhead : l.head? ≠ some ' ') (hlast : l.getLast? ≠ some ' ') :
    ∀ ln ∈ splitNl l, ln.head? ≠ some ' ' ∧ ln.getLast? ≠ some ' ' := by
  obtain ⟨h1, h2⟩ := splitNl_tail_trimmed l hch hlast
  intro ln hln
  rw [← cons_headI_tail (splitNl_ne_nil l)] at hln
  rcases List.mem_cons.mp hln with rfl | h
  · refine ⟨?_, h1⟩
    rcases splitNl_headI_head l with hnone | hsame
    · rw [hnone]
      simp
    · rw [hsame]
      exact hhead
  · exact h2 ln h

theorem chain'_noSpacePair_collapseSp (l : List Char) :
    List.Chain' noSpacePair (collapseSp l) := by
  have h := chain'_collapseRunsGo isSpaceTab l false
  refine h.imp ?_
  intro a b hab hand
  exact hab ⟨by rw [hand.1]; decide, by rw [hand.2]; decide⟩

/-! ## Claim C10: cleanText output normalization -/

/-- C10: for every input, `cleanText`'s output contains no tab character and
no two consecutive spaces, every line of the output has no leading or
trailing space, and the whole output has no leading or trailing whitespace. -/
theorem c10_cleanText_properties (s : String) :
    '\t' ∉ (cleanText s).data ∧
    List.Chain' noSpacePair (cleanText s).data ∧
    (∀ ln ∈ splitNl (cleanText s).data,
        ln.head? ≠ some ' ' ∧ ln.getLast? ≠ some ' ') ∧
    (∀ c, (cleanText s).data.head? = some c → c.isWhitespace = false) ∧
    (∀ c, (cleanText s).data.getLast? = some c → c.isWhitespace = false) := by
  have hdata : (cleanText s).data
      = trimChars (joinNl ((splitNl (collapseSp (collapseNl s.data))).map
          trimChars)) := rfl
  set B := collapseSp (collapseNl s.data) with hB
  set M := (splitNl B).map trimChars with hM
  set J := joinNl M with hJ
  have hBchain : List.Chain' noSpacePair B := chain'_noSpacePair_collapseSp _
  have hlineBase : ∀ ln ∈ M, ∃ ln0 ∈ splitNl B, ln = trimChars ln0 := by
    intro ln hln
    rw [hM] at hln
    obtain ⟨ln0, h0, hln0⟩ := List.mem_map.mp hln
    exact ⟨ln0, h0, hln0.symm⟩
  have hlineNoNl : ∀ ln ∈ M, ∀ c ∈ ln, c ∈ B ∧ c ≠ '\n' := by
    intro ln hln c hc
    obtain ⟨ln0, h0, rfl⟩ := hlineBase ln hln
    exact splitNl_line_mem B ln0 c h0 (mem_trimChars ln0 c hc)
  have hlineChain : ∀ ln ∈ M, List.Chain' noSpacePair ln := by
    intro ln hln
    obtain ⟨ln0, h0, rfl⟩ := hlineBase ln hln
    exact chain'_trimChars _ _
      (splitNl_line_chain noSpacePair B hBchain ln0 h0)
  have hlineHead :
      ∀ ln ∈ M, ∀ c, ln.head? = some c → c.isWhitespace = false := by
    intro ln hln c hc
    obtain ⟨ln0, h0, rfl⟩ := hlineBase ln hln
    exact trimChars_head_not_ws ln0 c hc
  have hlineLast :
      ∀ ln ∈ M, ∀ c, ln.getLast? = some c → c.isWhitespace = false := by
    intro ln hln c hc
    obtain ⟨ln0, h0, rfl⟩ := hlineBase ln hln
    exact trimChars_getLast_not_ws ln0 c hc
  have hJtab : '\t' ∉ J := by
    intro h
    rcases mem_joinNl M '\t' h with h | ⟨ln, hln, hc⟩
    · exact absurd h (by decide)
    · have hm := (hlineNoNl ln hln '\t' hc).1
      rw [hB] at hm
      rcases mem_collapseRunsGo isSpaceTab (collapseNl s.data) false '\t' hm
        with h2 | ⟨_, h3⟩
      · exact absurd h2 (by decide)
      · exact absurd h3 (by decide)
  have hJq2 : List.Chain' noSpacePair J := by
    rw [hJ]
    refine chain'_joinNl noSpacePair
      (fun hand => absurd hand.1 (by decide)) M hlineChain ?_ ?_
    · intro ln hln c hc hand
      exact absurd hand.2 (by decide)
    · intro ln hln c hc hand
      exact absurd hand.1 (by decide)
  have hJqNl : List.Chain' noSpaceNewlinePair J := by
    rw [hJ]
    refine chain'_joinNl noSpaceNewlinePair
      ⟨fun hand => absurd hand.1 (by decide),
       fun hand => absurd hand.2 (by decide)⟩ M ?_ ?_ ?_
    · intro ln hln
      refine chain'_of_mem_rel _ ln ?_
      intro a ha b hb
      exact ⟨fun hand => (hlineNoNl ln hln b hb).2 hand.2,
             fun hand => (hlineNoNl ln hln a ha).2 hand.1⟩
    · intro ln hln c hc
      refine ⟨?_, fun hand => absurd hand.2 (by decide)⟩
      intro hand
      have hw := hlineLast ln hln c hc
      rw [hand.1] at hw
      exact absurd hw (by decide)
    · intro ln hln c hc
      refine ⟨fun hand => absurd hand.1 (by decide), ?_⟩
      intro hand
      have hw := hlineHead ln hln c hc
      rw [hand.2] at hw
      exact absurd hw (by decide)
  refine ⟨?_, ?_, ?_, ?_, ?_⟩
  · rw [hdata]
    intro h
    exact hJtab (mem_trimChars J '\t' h)
  · rw [hdata]
    exact chain'_trimChars _ _ hJq2
  · rw [hdata]
    exact splitNl_all_trimmed (trimChars J) (chain'_trimChars _ _ hJqNl)
      (fun h => absurd (trimChars_head_not_ws J ' ' h) (by decide))
      (fun h => absurd (trimChars_getLast_not_ws J ' ' h) (by decide))
  · rw [hdata]
    intro c h
    exact trimChars_head_not_ws J c h
  · rw [hdata]
    intro c h
    exact trimChars_getLast_not_ws J c h

/-- Witness for C10's per-line conjunct at a concrete input. -/
theorem c10_cleanText_properties_witness :
    (['a'] : List Char).head? ≠ some ' ' ∧
      (['a'] : List Char).getLast? ≠ some ' ' :=
  (c10_cleanText_properties "a").2.2.1 ['a'] (by decide)
